import Mathlib

/-!
Verification of the mcp-vector-indexer core pipeline (chunking, embedding
cache, ingestion batching, and query-result merging) against its design
specification.  The Python source is shallowly embedded: text is a list of
characters, Python integers are Int (slice offsets can go negative), the
while loop of the chunker is given explicit fuel (returning none when the
fuel runs out, which witnesses divergence when it holds for every fuel),
result dictionaries become structures, similarity scores are rationals
(the code only compares them), the SQLite fingerprint-cache table with its
primary-key column becomes an association list whose put operation removes
any conflicting row before appending, and the external embedding provider,
the chunk producer used by the ingestion layer, and the content-hash
function are passed in as function parameters, since the design treats
them as external collaborators.
-/

namespace MVI

/-! ## Chunker (embedder.py, chunk_text, lines 88-108) -/

/-- Python slice semantics t[a:b] for integer bounds: negative indices
count from the end, and both bounds are clamped into [0, len t]. -/
def pySlice (t : List Char) (a b : Int) : List Char :=
  let n : Int := t.length
  let a2 : Int := if a < 0 then max (n + a) 0 else min a n
  let b2 : Int := if b < 0 then max (n + b) 0 else min b n
  (t.take b2.toNat).drop a2.toNat

/-- The while loop of chunk_text with explicit fuel.  Each iteration with
start < len emits the window t[start : min (start+cs) len], then sets
start to end - ov and stops once that value reaches len; otherwise it
loops.  Running out of fuel yields none. -/
def chunkLoop (cs ov : Nat) (t : List Char) :
    Nat → Int → List (List Char) → Option (List (List Char))
  | 0, _, _ => none
  | fuel + 1, start, chunks =>
    if start < (t.length : Int) then
      let e : Int := min (start + (cs : Int)) (t.length : Int)
      let chunks2 := chunks ++ [pySlice t start e]
      let start2 : Int := e - (ov : Int)
      if (t.length : Int) ≤ start2 then some chunks2
      else chunkLoop cs ov t fuel start2 chunks2
    else some chunks

/-- chunk_text: empty input returns the empty list at once, any other
input runs the chunking loop from offset 0. -/
def chunk_text (fuel cs ov : Nat) (t : List Char) : Option (List (List Char)) :=
  if t.isEmpty then some [] else chunkLoop cs ov t fuel 0 []

/-- Instrumented variant of the chunking loop that records the window
boundary pairs (start, end) instead of the sliced text; identical control
flow to chunkLoop. -/
def chunkLoopW (cs ov : Nat) (t : List Char) :
    Nat → Int → List (Int × Int) → Option (List (Int × Int))
  | 0, _, _ => none
  | fuel + 1, start, ws =>
    if start < (t.length : Int) then
      let e : Int := min (start + (cs : Int)) (t.length : Int)
      let ws2 := ws ++ [(start, e)]
      let start2 : Int := e - (ov : Int)
      if (t.length : Int) ≤ start2 then some ws2
      else chunkLoopW cs ov t fuel start2 ws2
    else some ws

/-- Window-boundary trace of chunk_text. -/
def chunk_windows (fuel cs ov : Nat) (t : List Char) : Option (List (Int × Int)) :=
  if t.isEmpty then some [] else chunkLoopW cs ov t fuel 0 []

/-- The text emitted for one recorded window. -/
def windowSlice (t : List Char) (w : Int × Int) : List Char :=
  pySlice t w.1 w.2

/-! ## Query engine (search.py, lines 95-171) -/

/-- One entry of the per-query result pool built by search, lines
118-127 of search.py: the keys of the result dictionary become fields;
the float similarity score becomes a rational, since the code only ever
compares similarities. -/
structure SearchResult where
  file_path : String
  content : String
  similarity : ℚ
  file_type : String
  chunk_index : Nat
  query : String
deriving DecidableEq, Repr

/-- The descending comparison used by sort_results_by_similarity. -/
def simGE (a b : SearchResult) : Prop := b.similarity ≤ a.similarity

instance : DecidableRel simGE := fun a b =>
  inferInstanceAs (Decidable (b.similarity ≤ a.similarity))

/-- sort_results_by_similarity (search.py lines 164-166): Python sorted
with reverse=True is a stable descending sort, modelled by insertion
sort with the ties-keep-original-order insertion rule. -/
def sort_results_by_similarity (results : List SearchResult) : List SearchResult :=
  List.insertionSort simGE results

/-- One step of the deduplication scan (search.py lines 157-160): a
Python dict keyed by file_path, updating an existing key in place and
appending a fresh key at the end, replacing the stored entry only when
the new similarity is strictly greater. -/
def dedupInsert (seen : List SearchResult) (r : SearchResult) : List SearchResult :=
  match seen with
  | [] => [r]
  | s :: rest =>
    if s.file_path = r.file_path then
      (if s.similarity < r.similarity then r else s) :: rest
    else s :: dedupInsert rest r

/-- deduplicate_results (search.py lines 153-162): scan the results in
order through the keyed accumulator and return the dict values in
insertion order. -/
def deduplicate_results (results : List SearchResult) : List SearchResult :=
  results.foldl dedupInsert []

/-- The pool-processing tail of search (search.py lines 129-133): sort
the pooled per-query results by similarity descending, deduplicate by
file path, truncate to n_results.  The retrieval that builds the pool is
the external vector store. -/
def search (pool : List SearchResult) (n_results : Nat) : List SearchResult :=
  (deduplicate_results (sort_results_by_similarity pool)).take n_results

/-- filter_results_by_threshold (search.py lines 168-171). -/
def filter_results_by_threshold (results : List SearchResult) (threshold : ℚ) :
    List SearchResult :=
  results.filter (fun r => decide (threshold ≤ r.similarity))

/-- The file-type filter of search_with_filters (search.py lines
145-146).  The Python guard is the truthiness test if file_types:, so
both None and an empty list skip the filter. -/
def type_filtered (results : List SearchResult) (file_types : Option (List String)) :
    List SearchResult :=
  match file_types with
  | none => results
  | some fts => if fts.isEmpty then results else
      results.filter (fun r => fts.contains r.file_type)

/-- search_with_filters (search.py lines 135-151): request 2 times
n_results from search, apply the type filter and the threshold filter,
return the first n_results survivors. -/
def search_with_filters (pool : List SearchResult) (file_types : Option (List String))
    (similarity_threshold : ℚ) (n_results : Nat) : List SearchResult :=
  (filter_results_by_threshold
      (type_filtered (search pool (2 * n_results)) file_types)
      similarity_threshold).take n_results

/-- Modelled from the spec: the order of operations named in section 4.5
of the design (deduplicate the pool first, then sort by similarity
descending, then truncate to topN), to be compared with the
implemented order in search. -/
def spec_order_search (pool : List SearchResult) (n_results : Nat) : List SearchResult :=
  (sort_results_by_similarity (deduplicate_results pool)).take n_results

/-! ## Fingerprint cache and get_embedding (embedder.py, lines 19-86)

The SQLite table embeddings has content_hash as primary key, so it holds
at most one row per hash; it is modelled as an association list of rows.
INSERT OR REPLACE deletes any conflicting row and inserts the new one,
modelled by filtering out rows with the key and appending the new row.
The stored vector type is a parameter, the md5 content hash and the
model.encode call of the external provider are function parameters, and
the pickle round trip is the identity. -/

variable {V : Type}

/-- SELECT embedding FROM embeddings WHERE content_hash = key (lines
46-56 of embedder.py): the first matching row, if any. -/
def cacheGet (db : List (String × V)) (key : String) : Option V :=
  (db.find? (fun row => row.1 == key)).map Prod.snd

/-- INSERT OR REPLACE INTO embeddings (lines 58-67 of embedder.py):
remove any row with this primary key, then insert the new row. -/
def cachePut (db : List (String × V)) (key : String) (v : V) : List (String × V) :=
  db.filter (fun row => row.1 != key) ++ [(key, v)]

/-- get_embedding (embedder.py lines 74-86) as a state transformer on the
cache database.  It returns the vector, the resulting database, and how
many times the embedding provider (model.encode) was invoked during the
call. -/
def get_embedding (hash : String → String) (encode : String → V)
    (db : List (String × V)) (text : String) : V × List (String × V) × Nat :=
  match cacheGet db (hash text) with
  | some v => (v, db, 0)
  | none => (encode text, cachePut db (hash text) (encode text), 1)

/-! ## Ingestion batching (search.py, lines 35-93 and 192-212)

A document dictionary handed to add_documents; the fields read with
doc.get and optional defaults become Option fields.  The datetime value
of last_modified is modelled by its isoformat string. -/

structure Document where
  file_path : String
  content : String
  file_type : Option String
  file_size : Option Nat
  last_modified : Option String
deriving DecidableEq, Repr

/-- The metadata dictionary built for one chunk (search.py lines 62-68),
with the defaults of doc.get applied: empty string for file_type, 0 for
file_size, and the empty string when last_modified is absent. -/
structure RecordMeta where
  file_path : String
  file_type : String
  chunk_index : Nat
  file_size : Nat
  last_modified : String
deriving DecidableEq, Repr

/-- One record accumulated for the vector store: id, embedding, metadata
and chunk text (search.py lines 57-69). -/
structure VectorRecord (V : Type) where
  id : String
  embedding : V
  meta : RecordMeta
  document : String
deriving DecidableEq, Repr

/-- The records produced for one document (search.py lines 46-69): one
per chunk, with id built from the path and the 0-based chunk index.  The
chunk producer and the per-chunk embedder are parameters. -/
def docRecords (chunker : String → List String) (embed : String → V)
    (doc : Document) : List (VectorRecord V) :=
  (chunker doc.content).enum.map (fun p =>
    { id := doc.file_path ++ "_" ++ toString p.1
      embedding := embed p.2
      meta := { file_path := doc.file_path
                file_type := doc.file_type.getD ""
                chunk_index := p.1
                file_size := doc.file_size.getD 0
                last_modified := doc.last_modified.getD "" }
      document := p.2 })

/-- The per-document step of add_documents (search.py lines 46-83):
append the records of this document to the accumulation buffer, and when
the buffer holds at least 100 records flush it as one batch and clear
it.  The state is the list of flushed batches paired with the buffer. -/
def addStep (chunker : String → List String) (embed : String → V)
    (st : List (List (VectorRecord V)) × List (VectorRecord V)) (doc : Document) :
    List (List (VectorRecord V)) × List (VectorRecord V) :=
  let buf := st.2 ++ docRecords chunker embed doc
  if 100 ≤ buf.length then (st.1 ++ [buf], []) else (st.1, buf)

/-- add_documents (search.py lines 35-93) as the list of batches handed
to collection.add, in order: fold the per-document step over the input,
then flush the remaining buffer when it is nonempty. -/
def add_documents (chunker : String → List String) (embed : String → V)
    (docs : List Document) : List (List (VectorRecord V)) :=
  let st := docs.foldl (addStep chunker embed) ([], [])
  if st.2.isEmpty then st.1 else st.1 ++ [st.2]

/-- The single-document dictionary rebuilt by update_document (search.py
lines 207-211): path, content and lowercased extension only; file_size
and last_modified are omitted.  The extension extraction
os.path.splitext(path)[1].lower() of the standard library is the
parameter extOf. -/
def rebuilt_doc (extOf : String → String) (file_path content : String) : Document :=
  { file_path := file_path, content := content,
    file_type := some (extOf file_path), file_size := none, last_modified := none }

/-- update_document (search.py lines 192-212) as a transformer of the
vector-store contents.  The try block around collection.get and
collection.delete is modelled by the deleteFails flag: when the store
raises there, the exception is caught and the store is left unchanged,
and in either case the rebuilt single-document dictionary is re-ingested
through add_documents. -/
def update_document (chunker : String → List String) (embed : String → V)
    (extOf : String → String) (store : List (VectorRecord V))
    (file_path content : String) (deleteFails : Bool) : List (VectorRecord V) :=
  let ids := (store.filter (fun r => r.meta.file_path == file_path)).map (fun r => r.id)
  let store2 := if deleteFails then store
    else store.filter (fun r => !(ids.contains r.id))
  store2 ++ (add_documents chunker embed [rebuilt_doc extOf file_path content]).flatten

/-! ## Cache lemmas -/

theorem cacheGet_cachePut_self (db : List (String × V)) (k : String) (v : V) :
    cacheGet (cachePut db k v) k = some v := by
  have h1 : List.find? (fun row => row.1 == k) (db.filter (fun row => row.1 != k)) = none := by
    rw [List.find?_eq_none]
    intro x hx
    have hx2 := (List.mem_filter.mp hx).2
    simp only [bne_iff_ne, ne_eq] at hx2
    simp [hx2]
  simp [cacheGet, cachePut, List.find?_append, h1]

theorem find?_filter_imp {α : Type} (p q : α → Bool) (l : List α)
    (h : ∀ x, p x = true → q x = true) :
    List.find? p (l.filter q) = List.find? p l := by
  induction l with
  | nil => rfl
  | cons a l ih =>
    by_cases hq : q a
    · rw [List.filter_cons_of_pos hq]
      by_cases hp : p a
      · rw [List.find?_cons_of_pos _ hp, List.find?_cons_of_pos _ hp]
      · rw [List.find?_cons_of_neg _ hp, List.find?_cons_of_neg _ hp, ih]
    · have hp : ¬p a = true := fun hpa => hq (h a hpa)
      rw [List.filter_cons_of_neg hq, List.find?_cons_of_neg _ hp, ih]

theorem cacheGet_cachePut_other (db : List (String × V)) (k k2 : String) (v : V)
    (h : k2 ≠ k) : cacheGet (cachePut db k v) k2 = cacheGet db k2 := by
  have hlast : List.find? (fun row => row.1 == k2) [(k, v)] = none := by
    simp [Ne.symm h]
  rw [cacheGet, cachePut, List.find?_append, hlast, Option.or_none,
    find?_filter_imp _ _ _ (fun x hx => by
      simp only [beq_iff_eq] at hx
      simp [hx, h])]
  rfl

/-- C4: get_embedding called twice on byte-identical text invokes the
provider at most once in total, and the second call returns the vector
of the first. -/
theorem get_embedding_cache_hit_C4 (hash : String → String) (encode : String → V)
    (db : List (String × V)) (text : String) :
    (get_embedding hash encode db text).2.2 +
      (get_embedding hash encode (get_embedding hash encode db text).2.1 text).2.2 ≤ 1 ∧
    (get_embedding hash encode (get_embedding hash encode db text).2.1 text).1 =
      (get_embedding hash encode db text).1 := by
  unfold get_embedding
  cases hc : cacheGet db (hash text) with
  | some v => simp [hc]
  | none => simp [hc, cacheGet_cachePut_self]

theorem cacheGet_foldl_other (f : String) (ops : List (String × V))
    (h : ∀ p ∈ ops, p.1 ≠ f) (d : List (String × V)) :
    cacheGet (ops.foldl (fun db p => cachePut db p.1 p.2) d) f = cacheGet d f := by
  induction ops generalizing d with
  | nil => rfl
  | cons p ops ih =>
    have hp : p.1 ≠ f := h p (List.mem_cons_self p ops)
    have hrest : ∀ q ∈ ops, q.1 ≠ f := fun q hq => h q (List.mem_cons_of_mem p hq)
    rw [List.foldl_cons, ih hrest, cacheGet_cachePut_other _ _ _ _ (Ne.symm hp)]

/-- C9: the fingerprint store keeps one entry per fingerprint after an
upsert, a put on a present key overwrites instead of appending, the
keys stay duplicate free, and a get after a put with no intervening put
on that key returns the written vector (last write wins). -/
theorem cache_upsert_semantics_C9 (db : List (String × V)) (f : String) (v : V)
    (ops : List (String × V))
    (h1 : ∀ p ∈ ops, p.1 ≠ f)
    (h2 : (db.map Prod.fst).Nodup)
    (h3 : f ∈ db.map Prod.fst) :
    List.countP (fun row => row.1 == f) (cachePut db f v) = 1 ∧
    ((cachePut db f v).map Prod.fst).Nodup ∧
    (cachePut db f v).length = db.length ∧
    cacheGet (ops.foldl (fun d p => cachePut d p.1 p.2) (cachePut db f v)) f = some v := by
  refine ⟨?_, ?_, ?_, ?_⟩
  · rw [cachePut, List.countP_append, List.countP_filter]
    have hz : List.countP (fun row => (row.1 == f) && (row.1 != f)) db = 0 := by
      rw [List.countP_eq_zero]
      intro a _
      by_cases ha : a.1 = f <;> simp [ha]
    simp [hz, List.countP_cons]
  · rw [cachePut, List.map_append, List.nodup_append]
    refine ⟨?_, by simp, ?_⟩
    · exact h2.sublist ((List.filter_sublist db).map Prod.fst)
    · intro a ha
      simp only [List.mem_map] at ha
      obtain ⟨row, hrow, hfst⟩ := ha
      have := (List.mem_filter.mp hrow).2
      simp only [bne_iff_ne, ne_eq, decide_eq_true_eq] at this
      simp [← hfst, this]
  · induction db with
    | nil => simp at h3
    | cons row db ih =>
      by_cases hr : row.1 = f
      · have hnot : f ∉ db.map Prod.fst := by
          intro hf
          exact (List.nodup_cons.mp (by simpa [hr] using h2)).1 hf
        have hall : db.filter (fun q => q.1 != f) = db := by
          rw [List.filter_eq_self]
          intro a ha
          simp only [bne_iff_ne, ne_eq, decide_eq_true_eq]
          intro heq
          exact hnot (by simpa [heq] using List.mem_map_of_mem Prod.fst ha)
        simp [cachePut, List.filter_cons, hr, hall]
      · have htail : f ∈ db.map Prod.fst := by
          rcases List.mem_map.mp h3 with ⟨q, hq, hfst⟩
          rcases List.mem_cons.mp hq with rfl | hq2
          · exact absurd hfst hr
          · exact hfst ▸ List.mem_map_of_mem Prod.fst hq2
        have hlen := ih (List.nodup_cons.mp (by simpa using h2)).2 htail
        simp only [cachePut, List.length_append, List.length_cons] at hlen
        simp only [cachePut, List.filter_cons, hr, List.length_append, List.length_cons]
        simp only [bne_iff_ne, ne_eq, hr, not_false_eq_true, decide_eq_true_eq,
          if_true, reduceIte]
        simp only [List.length_cons]
        omega
  · rw [cacheGet_foldl_other f ops h1, cacheGet_cachePut_self]

/-! ## Ingestion lemmas -/

theorem addStep_buffer_lt (chunker : String → List String) (embed : String → V)
    (st : List (List (VectorRecord V)) × List (VectorRecord V)) (doc : Document) :
    ((addStep chunker embed st doc).2).length < 100 := by
  unfold addStep
  by_cases hb : 100 ≤ st.2.length + (docRecords chunker embed doc).length
  · simp [List.length_append, hb]
  · simp only [List.length_append, hb, if_false]
    omega

theorem foldl_addStep_buffer_lt (chunker : String → List String) (embed : String → V)
    (docs : List Document) (st : List (List (VectorRecord V)) × List (VectorRecord V))
    (h : st.2.length < 100) :
    ((docs.foldl (addStep chunker embed) st).2).length < 100 := by
  induction docs generalizing st with
  | nil => exact h
  | cons d docs ih =>
    exact ih _ (addStep_buffer_lt chunker embed st d)

theorem foldl_addStep_flatten (chunker : String → List String) (embed : String → V)
    (docs : List Document) (st : List (List (VectorRecord V)) × List (VectorRecord V)) :
    ((docs.foldl (addStep chunker embed) st).1).flatten
        ++ (docs.foldl (addStep chunker embed) st).2
      = st.1.flatten ++ st.2 ++ (docs.map (docRecords chunker embed)).flatten := by
  induction docs generalizing st with
  | nil => simp
  | cons d docs ih =>
    rw [List.foldl_cons, ih]
    unfold addStep
    by_cases hb : 100 ≤ st.2.length + (docRecords chunker embed d).length
    · simp [List.length_append, hb, List.append_assoc]
    · simp [List.length_append, hb, List.append_assoc]

theorem foldl_addStep_batches_ne_nil (chunker : String → List String) (embed : String → V)
    (docs : List Document) (st : List (List (VectorRecord V)) × List (VectorRecord V))
    (h : ∀ b ∈ st.1, b ≠ []) :
    ∀ b ∈ (docs.foldl (addStep chunker embed) st).1, b ≠ [] := by
  induction docs generalizing st with
  | nil => exact h
  | cons d docs ih =>
    refine ih _ ?_
    unfold addStep
    by_cases hb : 100 ≤ st.2.length + (docRecords chunker embed d).length
    · simp only [List.length_append, hb, if_true]
      intro b hbm
      rcases List.mem_append.mp hbm with hbm | hbm
      · exact h b hbm
      · have hbe : b = st.2 ++ docRecords chunker embed d := by simpa using hbm
        intro hnil
        rw [hnil] at hbe
        have hlen := congrArg List.length hbe
        simp [List.length_append] at hlen
        omega
    · simpa [List.length_append, hb] using h

theorem add_documents_flatten (chunker : String → List String) (embed : String → V)
    (docs : List Document) :
    (add_documents chunker embed docs).flatten
      = (docs.map (docRecords chunker embed)).flatten := by
  unfold add_documents
  have h := foldl_addStep_flatten chunker embed docs ([], [])
  by_cases he : (docs.foldl (addStep chunker embed) ([], [])).2.isEmpty
  · have he2 : (docs.foldl (addStep chunker embed) ([], [])).2 = [] :=
      List.isEmpty_iff.mp he
    simp only [he, if_true]
    simpa [he2] using h
  · simp only [he, if_false]
    simpa using h

/-- C5: during add_documents the accumulation buffer never retains 100
or more records after a document is processed (a full buffer is flushed
as one batch and cleared), every flushed batch is nonempty, and the
flushed batches together carry exactly the records of all documents in
order, so a remaining partial batch is flushed at the end. -/
theorem add_documents_batching_C5 (chunker : String → List String) (embed : String → V)
    (docs : List Document) :
    (∀ pre suf, docs = pre ++ suf →
      ((pre.foldl (addStep chunker embed) ([], [])).2).length < 100) ∧
    (add_documents chunker embed docs).flatten
      = (docs.map (docRecords chunker embed)).flatten ∧
    ∀ b ∈ add_documents chunker embed docs, b ≠ [] := by
  refine ⟨fun pre _ _ => foldl_addStep_buffer_lt chunker embed pre ([], []) (by simp),
    add_documents_flatten chunker embed docs, ?_⟩
  intro b hb
  unfold add_documents at hb
  by_cases he : (docs.foldl (addStep chunker embed) ([], [])).2.isEmpty
  · simp only [he, if_true] at hb
    exact foldl_addStep_batches_ne_nil chunker embed docs ([], []) (by simp) b hb
  · simp only [he, if_false] at hb
    rcases List.mem_append.mp hb with hb | hb
    · exact foldl_addStep_batches_ne_nil chunker embed docs ([], []) (by simp) b hb
    · have hbe : b = (docs.foldl (addStep chunker embed) ([], [])).2 := by simpa using hb
      rw [hbe]
      intro hnil
      rw [hnil] at he
      simp at he

/-- C8: update_document first removes, when the store deletion does not
raise, every record whose metadata path equals the given path, so that
any record with that path in the result is re-ingested material; when
the deletion raises, the caught failure leaves the prior store intact;
and in all cases the rebuilt document goes back in through the batched
add_documents path, its records forming the tail of the result. -/
theorem update_document_delete_C8 (chunker : String → List String) (embed : String → V)
    (extOf : String → String) (store : List (VectorRecord V))
    (file_path content : String) (deleteFails : Bool) :
    (deleteFails = true →
      update_document chunker embed extOf store file_path content deleteFails
        = store ++ (add_documents chunker embed [rebuilt_doc extOf file_path content]).flatten) ∧
    (deleteFails = false →
      ∀ r ∈ update_document chunker embed extOf store file_path content deleteFails,
        r.meta.file_path = file_path →
        r ∈ (add_documents chunker embed [rebuilt_doc extOf file_path content]).flatten) ∧
    (∃ pre, update_document chunker embed extOf store file_path content deleteFails
        = pre ++ (add_documents chunker embed [rebuilt_doc extOf file_path content]).flatten) := by
  refine ⟨fun hb => by simp [update_document, hb], fun hb r hr hpath => ?_, ?_⟩
  · rw [update_document] at hr
    rw [hb] at hr
    rw [if_neg (by simp)] at hr
    rcases List.mem_append.mp hr with hr | hr
    · exfalso
      have hmem := List.mem_filter.mp hr
      have hid : r.id ∈ (store.filter
          (fun s => s.meta.file_path == file_path)).map (fun s => s.id) := by
        refine List.mem_map.mpr ⟨r, ?_, rfl⟩
        exact List.mem_filter.mpr ⟨hmem.1, by simp [hpath]⟩
      have := hmem.2
      simp only [Bool.not_eq_true'] at this
      rw [List.contains_eq_any_beq] at this
      simp only [List.any_eq_false] at this
      exact this r.id hid (by simp)
    · exact hr
  · cases deleteFails
    · exact ⟨_, rfl⟩
    · exact ⟨_, rfl⟩

/-- C10: every record re-inserted by update_document carries the default
metadata file_size 0 and empty last_modified, because the rebuilt
document dictionary omits those fields and add_documents substitutes
its defaults. -/
theorem update_document_defaults_C10 (chunker : String → List String) (embed : String → V)
    (extOf : String → String) (store : List (VectorRecord V))
    (file_path content : String) (deleteFails : Bool) :
    (∃ pre, update_document chunker embed extOf store file_path content deleteFails
        = pre ++ (add_documents chunker embed [rebuilt_doc extOf file_path content]).flatten) ∧
    ∀ r ∈ (add_documents chunker embed [rebuilt_doc extOf file_path content]).flatten,
      r.meta.file_size = 0 ∧ r.meta.last_modified = "" := by
  constructor
  · cases deleteFails
    · exact ⟨_, rfl⟩
    · exact ⟨_, rfl⟩
  · intro r hr
    rw [add_documents_flatten] at hr
    simp only [List.map_cons, List.map_nil, List.flatten_cons, List.flatten_nil,
      List.append_nil] at hr
    rcases List.mem_map.mp hr with ⟨p, _, rfl⟩
    exact ⟨rfl, rfl⟩

/-! ## Chunker lemmas -/

theorem chunkLoop_stuck_ab (fuel : Nat) (acc : List (List Char)) :
    chunkLoop 2 1 (['a', 'b']) fuel 1 acc = none := by
  induction fuel generalizing acc with
  | zero => rfl
  | succ n ih =>
    rw [chunkLoop]
    norm_num
    exact ih _

/-- C1: evaluation of chunk_text at the failing input: with chunk_size 2
and overlap 1 (so 0 ≤ overlap < chunkSize) on the two-character text ab,
the loop reaches start = 1 with window end = 2 = length and start is
reset to 2 - 1 = 1 forever, so no amount of fuel makes the loop return:
the code does not terminate, against the claimed termination for all
overlap < chunkSize. -/
theorem chunk_text_nonterminating_C1 (fuel : Nat) :
    chunk_text fuel 2 1 (['a', 'b']) = none := by
  cases fuel with
  | zero => rfl
  | succ n =>
    rw [chunk_text]
    norm_num
    rw [chunkLoop]
    norm_num
    exact chunkLoop_stuck_ab n _

theorem chunkLoopW_acc_eq (cs ov : Nat) (t : List Char) (fuel : Nat) (start : Int)
    (ws : List (Int × Int)) :
    chunkLoop cs ov t fuel start (ws.map (windowSlice t))
      = (chunkLoopW cs ov t fuel start ws).map (List.map (windowSlice t)) := by
  induction fuel generalizing start ws with
  | zero => rfl
  | succ n ih =>
    rw [chunkLoop, chunkLoopW]
    by_cases h1 : start < (t.length : Int)
    · simp only [h1, if_true]
      by_cases h2 : (t.length : Int) ≤ min (start + (cs : Int)) (t.length : Int) - (ov : Int)
      · simp [h2, windowSlice]
      · simp only [h2, if_false]
        have h3 := ih (min (start + (cs : Int)) (t.length : Int) - (ov : Int))
          (ws ++ [(start, min (start + (cs : Int)) (t.length : Int))])
        simpa [windowSlice] using h3
    · simp [h1]

theorem chunkLoopW_grows (cs ov : Nat) (t : List Char) (fuel : Nat) (start : Int)
    (ws w : List (Int × Int)) (h : chunkLoopW cs ov t fuel start ws = some w) :
    ws.length ≤ w.length := by
  induction fuel generalizing start ws with
  | zero => exact absurd h (by rw [chunkLoopW]; exact fun hc => Option.noConfusion hc)
  | succ n ih =>
    rw [chunkLoopW] at h
    by_cases h1 : start < (t.length : Int)
    · simp only [h1, if_true] at h
      by_cases h2 : (t.length : Int) ≤ min (start + (cs : Int)) (t.length : Int) - (ov : Int)
      · simp only [h2, if_true, Option.some_inj] at h
        rw [← h]
        simp
      · simp only [h2, if_false] at h
        have := ih _ _ h
        simp only [List.length_append, List.length_cons, List.length_nil] at this
        omega
    · simp only [h1, if_false, Option.some_inj] at h
      rw [h]

theorem chunkLoopW_gives_append (cs ov : Nat) (t : List Char) (fuel : Nat) (start : Int)
    (ws w : List (Int × Int)) (h : chunkLoopW cs ov t fuel start ws = some w) :
    ∃ tail, w = ws ++ tail := by
  induction fuel generalizing start ws with
  | zero => exact absurd h (by rw [chunkLoopW]; exact fun hc => Option.noConfusion hc)
  | succ n ih =>
    rw [chunkLoopW] at h
    by_cases h1 : start < (t.length : Int)
    · simp only [h1, if_true] at h
      by_cases h2 : (t.length : Int) ≤ min (start + (cs : Int)) (t.length : Int) - (ov : Int)
      · simp only [h2, if_true, Option.some_inj] at h
        exact ⟨[(start, min (start + (cs : Int)) (t.length : Int))], h.symm⟩
      · simp only [h2, if_false] at h
        obtain ⟨tail2, htail⟩ := ih _ _ h
        exact ⟨(start, min (start + (cs : Int)) (t.length : Int)) :: tail2, by
          rw [htail, List.append_assoc]; rfl⟩
    · simp only [h1, if_false, Option.some_inj] at h
      exact ⟨[], by rw [← h, List.append_nil]⟩

theorem chunkLoopW_first (cs ov : Nat) (t : List Char) (fuel : Nat) (start : Int)
    (ws w : List (Int × Int)) (h : chunkLoopW cs ov t fuel start ws = some w)
    (hs : start < (t.length : Int)) :
    ∃ tail, w = ws ++ (start, min (start + (cs : Int)) (t.length : Int)) :: tail := by
  cases fuel with
  | zero => exact absurd h (by rw [chunkLoopW]; exact fun hc => Option.noConfusion hc)
  | succ n =>
    rw [chunkLoopW] at h
    simp only [hs, if_true] at h
    by_cases h2 : (t.length : Int) ≤ min (start + (cs : Int)) (t.length : Int) - (ov : Int)
    · simp only [h2, if_true, Option.some_inj] at h
      exact ⟨[], by rw [← h]⟩
    · simp only [h2, if_false] at h
      obtain ⟨tail2, htail⟩ := chunkLoopW_gives_append cs ov t n _ _ _ h
      exact ⟨tail2, by rw [htail, List.append_assoc]; rfl⟩

theorem chunkLoopW_windows_eq (cs ov : Nat) (t : List Char) (fuel : Nat) (start : Int)
    (ws w : List (Int × Int)) (h : chunkLoopW cs ov t fuel start ws = some w)
    (hws : ∀ p ∈ ws, p.2 = min (p.1 + (cs : Int)) (t.length : Int)) :
    ∀ p ∈ w, p.2 = min (p.1 + (cs : Int)) (t.length : Int) := by
  induction fuel generalizing start ws with
  | zero => exact absurd h (by rw [chunkLoopW]; exact fun hc => Option.noConfusion hc)
  | succ n ih =>
    rw [chunkLoopW] at h
    by_cases h1 : start < (t.length : Int)
    · simp only [h1, if_true] at h
      have hws2 : ∀ p ∈ ws ++ [(start, min (start + (cs : Int)) (t.length : Int))],
          p.2 = min (p.1 + (cs : Int)) (t.length : Int) := by
        intro p hp
        rcases List.mem_append.mp hp with hp | hp
        · exact hws p hp
        · have hpe : p = (start, min (start + (cs : Int)) (t.length : Int)) := by
            simpa using hp
          rw [hpe]
      by_cases h2 : (t.length : Int) ≤ min (start + (cs : Int)) (t.length : Int) - (ov : Int)
      · simp only [h2, if_true, Option.some_inj] at h
        rw [← h]
        exact hws2
      · simp only [h2, if_false] at h
        exact ih _ _ h hws2
    · simp only [h1, if_false, Option.some_inj] at h
      rw [← h]
      exact hws

theorem chunkLoopW_chain (cs ov : Nat) (t : List Char) (fuel : Nat) (start : Int)
    (ws w : List (Int × Int)) (h : chunkLoopW cs ov t fuel start ws = some w)
    (hc : List.Chain' (fun a b => b.1 = a.2 - (ov : Int)) ws)
    (hlast : ∀ p ∈ ws.getLast?, start = p.2 - (ov : Int)) :
    List.Chain' (fun a b => b.1 = a.2 - (ov : Int)) w := by
  induction fuel generalizing start ws with
  | zero => exact absurd h (by rw [chunkLoopW]; exact fun hc2 => Option.noConfusion hc2)
  | succ n ih =>
    rw [chunkLoopW] at h
    by_cases h1 : start < (t.length : Int)
    · simp only [h1, if_true] at h
      have hc2 : List.Chain' (fun a b => b.1 = a.2 - (ov : Int))
          (ws ++ [(start, min (start + (cs : Int)) (t.length : Int))]) := by
        rw [List.chain'_append]
        refine ⟨hc, List.chain'_singleton _, ?_⟩
        intro x hx y hy
        have hye : (start, min (start + (cs : Int)) (t.length : Int)) = y := by
          simpa using hy
        rw [← hye]
        exact hlast x hx
      have hlast2 : ∀ p ∈ (ws ++ [(start, min (start + (cs : Int)) (t.length : Int))]).getLast?,
          min (start + (cs : Int)) (t.length : Int) - (ov : Int) = p.2 - (ov : Int) := by
        intro p hp
        rw [List.getLast?_concat] at hp
        have hpe : (start, min (start + (cs : Int)) (t.length : Int)) = p := by
          simpa using hp
        rw [← hpe]
      by_cases h2 : (t.length : Int) ≤ min (start + (cs : Int)) (t.length : Int) - (ov : Int)
      · simp only [h2, if_true, Option.some_inj] at h
        rw [← h]
        exact hc2
      · simp only [h2, if_false] at h
        exact ih _ _ h hc2 hlast2
    · simp only [h1, if_false, Option.some_inj] at h
      rw [← h]
      exact hc

/-- C6: whenever the chunking loop returns within its fuel, the emitted
chunk list is the window slices, it is empty exactly when the text is
empty, the first window starts at offset 0, every window end is the
start plus the chunk size clipped to the text length (so each chunk is
text[start : start+chunkSize] clipped), and each next window starts at
the previous window end minus the overlap. -/
theorem chunk_text_windows_C6 (fuel cs ov : Nat) (t : List Char) (w : List (Int × Int))
    (h : chunk_windows fuel cs ov t = some w) :
    chunk_text fuel cs ov t = some (w.map (windowSlice t)) ∧
    (w.map (windowSlice t) = [] ↔ t = []) ∧
    (t ≠ [] → ∃ e, w.head? = some (0, e)) ∧
    (∀ p ∈ w, p.2 = min (p.1 + (cs : Int)) (t.length : Int)) ∧
    List.Chain' (fun a b => b.1 = a.2 - (ov : Int)) w := by
  by_cases ht : t.isEmpty
  · have ht2 : t = [] := List.isEmpty_iff.mp ht
    rw [chunk_windows] at h
    simp only [ht, if_true, Option.some_inj] at h
    rw [← h]
    refine ⟨by rw [chunk_text]; simp [ht], by simp [ht2], fun hne => absurd ht2 hne,
      by simp, by simp⟩
  · have ht2 : t ≠ [] := fun hh => by rw [hh] at ht; exact ht rfl
    have h0 : (0 : Int) < (t.length : Int) := by
      have hp : 0 < t.length := List.length_pos.mpr ht2
      exact_mod_cast hp
    have hbe : t.isEmpty = false := by simpa using ht
    rw [chunk_windows, hbe, if_neg Bool.false_ne_true] at h
    refine ⟨?_, ?_, ?_, chunkLoopW_windows_eq cs ov t fuel 0 [] w h (by simp),
      chunkLoopW_chain cs ov t fuel 0 [] w h (by simp) (by simp)⟩
    · rw [chunk_text, hbe, if_neg Bool.false_ne_true]
      have hacc := chunkLoopW_acc_eq cs ov t fuel 0 []
      simp only [List.map_nil] at hacc
      rw [hacc, h]
      rfl
    · constructor
      · intro hm
        exfalso
        have hw : w = [] := List.map_eq_nil_iff.mp hm
        obtain ⟨tail, htail⟩ := chunkLoopW_first cs ov t fuel 0 [] w h h0
        rw [hw] at htail
        simp at htail
      · intro hteq
        exact absurd hteq ht2
    · intro _
      obtain ⟨tail, htail⟩ := chunkLoopW_first cs ov t fuel 0 [] w h h0
      exact ⟨min (0 + (cs : Int)) (t.length : Int), by rw [htail]; rfl⟩

/-- Witness for C6 at fuel 5, chunk size 2, overlap 0 on the text abc:
the loop terminates with windows (0, 2) and (2, 3). -/
theorem chunk_text_windows_C6_witness :
    chunk_text 5 2 0 (['a', 'b', 'c']) =
      some ([((0 : Int), (2 : Int)), (2, 3)].map (windowSlice ['a', 'b', 'c'])) ∧
    ([((0 : Int), (2 : Int)), (2, 3)].map (windowSlice ['a', 'b', 'c']) = []
      ↔ (['a', 'b', 'c'] : List Char) = []) ∧
    ((['a', 'b', 'c'] : List Char) ≠ [] →
      ∃ e, ([((0 : Int), (2 : Int)), (2, 3)].head? = some (0, e))) ∧
    (∀ p ∈ [((0 : Int), (2 : Int)), (2, 3)],
      p.2 = min (p.1 + ((2 : Nat) : Int)) ((['a', 'b', 'c'] : List Char).length : Int)) ∧
    List.Chain' (fun a b => b.1 = a.2 - ((0 : Nat) : Int)) [((0 : Int), (2 : Int)), (2, 3)] :=
  chunk_text_windows_C6 5 2 0 (['a', 'b', 'c']) [(0, 2), (2, 3)] (by decide)

/-! ## Concrete fixtures used by witnesses -/

def wChunker : String → List String := fun s => [s]

def wEmbed : String → Nat := fun _ => 0

def wExt : String → String := fun _ => ".cs"

def wDoc : Document :=
  { file_path := "a.cs", content := "hello", file_type := some ".cs",
    file_size := none, last_modified := none }

def wRec : VectorRecord Nat :=
  { id := "a.cs_0", embedding := 0,
    meta := { file_path := "a.cs", file_type := ".cs", chunk_index := 0,
              file_size := 3, last_modified := "t" },
    document := "old" }

def wNewRec : VectorRecord Nat :=
  { id := "a.cs_0", embedding := 0,
    meta := { file_path := "a.cs", file_type := ".cs", chunk_index := 0,
              file_size := 0, last_modified := "" },
    document := "x" }

/-- Witness for C5 on a one-document batch. -/
theorem add_documents_batching_C5_witness :
    ((([wDoc] : List Document).foldl (addStep wChunker wEmbed) ([], [])).2).length < 100 ∧
    (add_documents wChunker wEmbed [wDoc]).flatten
      = (([wDoc] : List Document).map (docRecords wChunker wEmbed)).flatten ∧
    ∀ b ∈ add_documents wChunker wEmbed [wDoc], b ≠ [] :=
  ⟨(add_documents_batching_C5 wChunker wEmbed [wDoc]).1 [wDoc] [] (by simp),
    (add_documents_batching_C5 wChunker wEmbed [wDoc]).2.1,
    (add_documents_batching_C5 wChunker wEmbed [wDoc]).2.2⟩

/-- Witness for C8 on a one-record store, covering both the failing and
the successful deletion branch. -/
theorem update_document_delete_C8_witness :
    update_document wChunker wEmbed wExt [wRec] "a.cs" "x" true
      = [wRec] ++ (add_documents wChunker wEmbed [rebuilt_doc wExt "a.cs" "x"]).flatten ∧
    (∃ pre, update_document wChunker wEmbed wExt [wRec] "a.cs" "x" false
      = pre ++ (add_documents wChunker wEmbed [rebuilt_doc wExt "a.cs" "x"]).flatten) :=
  ⟨(update_document_delete_C8 wChunker wEmbed wExt [wRec] "a.cs" "x" true).1 rfl,
    (update_document_delete_C8 wChunker wEmbed wExt [wRec] "a.cs" "x" false).2.2⟩

/-- Witness for C9 on a store holding the fingerprint already. -/
theorem cache_upsert_semantics_C9_witness :
    List.countP (fun row => row.1 == "k") (cachePut [("k", (5 : Nat))] "k" 7) = 1 ∧
    ((cachePut [("k", (5 : Nat))] "k" 7).map Prod.fst).Nodup ∧
    (cachePut [("k", (5 : Nat))] "k" 7).length
      = ([("k", (5 : Nat))] : List (String × Nat)).length ∧
    cacheGet (([("j", (9 : Nat))] : List (String × Nat)).foldl
      (fun d p => cachePut d p.1 p.2) (cachePut [("k", (5 : Nat))] "k" 7)) "k" = some 7 :=
  cache_upsert_semantics_C9 [("k", 5)] "k" 7 [("j", 9)]
    (by decide) (by decide) (by decide)

/-- Witness for C10: the single record re-inserted for the rebuilt
document carries file_size 0 and empty last_modified. -/
theorem update_document_defaults_C10_witness :
    wNewRec.meta.file_size = 0 ∧ wNewRec.meta.last_modified = "" :=
  (update_document_defaults_C10 wChunker wEmbed wExt [wRec] "a.cs" "x" false).2
    wNewRec (by decide)

/-! ## Query-engine lemmas: sorting -/

/-- Distinct file paths, the deduplication criterion. -/
def pathNe (a b : SearchResult) : Prop := a.file_path ≠ b.file_path

instance : IsTotal SearchResult simGE :=
  ⟨fun a b => le_total b.similarity a.similarity⟩

instance : IsTrans SearchResult simGE :=
  ⟨fun _ _ _ hab hbc => le_trans hbc hab⟩

theorem sort_results_pairwise (pool : List SearchResult) :
    List.Pairwise simGE (sort_results_by_similarity pool) :=
  List.sorted_insertionSort simGE pool

theorem sort_results_perm (pool : List SearchResult) :
    (sort_results_by_similarity pool).Perm pool :=
  List.perm_insertionSort simGE pool

/-! ## Query-engine lemmas: deduplication -/

theorem dedupInsert_mem (seen : List SearchResult) (r x : SearchResult)
    (h : x ∈ dedupInsert seen r) : x ∈ seen ∨ x = r := by
  induction seen with
  | nil => simpa [dedupInsert] using h
  | cons s rest ih =>
    rw [dedupInsert] at h
    by_cases hp : s.file_path = r.file_path
    · simp only [hp, if_true] at h
      rcases List.mem_cons.mp h with hx | hx
      · by_cases hrep : s.similarity < r.similarity
        · simp only [hrep, if_true] at hx
          exact Or.inr hx
        · simp only [hrep, if_false] at hx
          exact Or.inl (hx ▸ List.mem_cons_self s rest)
      · exact Or.inl (List.mem_cons_of_mem s hx)
    · simp only [hp, if_false] at h
      rcases List.mem_cons.mp h with hx | hx
      · exact Or.inl (hx ▸ List.mem_cons_self s rest)
      · rcases ih hx with hx2 | hx2
        · exact Or.inl (List.mem_cons_of_mem s hx2)
        · exact Or.inr hx2

theorem dedupInsert_skip (seen : List SearchResult) (r a : SearchResult)
    (hkey : List.Pairwise pathNe seen) (ha : a ∈ seen)
    (hpath : a.file_path = r.file_path) (hle : r.similarity ≤ a.similarity) :
    dedupInsert seen r = seen := by
  induction seen with
  | nil => exact absurd ha (List.not_mem_nil a)
  | cons s rest ih =>
    rw [dedupInsert]
    by_cases hp : s.file_path = r.file_path
    · have has : a = s := by
        rcases List.mem_cons.mp ha with h1 | h1
        · exact h1
        · exfalso
          exact (List.rel_of_pairwise_cons hkey h1) (hpath.trans hp.symm).symm
      have : ¬s.similarity < r.similarity := not_lt.mpr (has ▸ hle)
      simp [hp, this]
    · have har : a ∈ rest := by
        rcases List.mem_cons.mp ha with h1 | h1
        · exact absurd (h1 ▸ hpath) hp
        · exact h1
      simp only [hp, if_false]
      rw [ih (List.Pairwise.of_cons hkey) har]

theorem dedupInsert_fresh (seen : List SearchResult) (r : SearchResult)
    (h : ∀ a ∈ seen, a.file_path ≠ r.file_path) :
    dedupInsert seen r = seen ++ [r] := by
  induction seen with
  | nil => rfl
  | cons s rest ih =>
    rw [dedupInsert]
    have hp : ¬s.file_path = r.file_path := h s (List.mem_cons_self s rest)
    simp only [hp, if_false, List.cons_append]
    rw [ih (fun a ha => h a (List.mem_cons_of_mem s ha))]

/-- Master invariant for the deduplication scan over a similarity-sorted
input: the accumulator keeps pairwise distinct paths, stays sorted, each
kept entry is the first entry of the processed input with its path, every
processed path is covered, and kept entries come from the processed
input. -/
theorem foldl_dedupInsert_sorted (l : List SearchResult) :
    ∀ (acc processed : List SearchResult),
    List.Pairwise simGE l →
    List.Pairwise pathNe acc →
    List.Pairwise simGE acc →
    (∀ a ∈ acc, ∀ s ∈ l, s.similarity ≤ a.similarity) →
    (∀ a ∈ acc, processed.find? (fun s => s.file_path == a.file_path) = some a) →
    (∀ s ∈ processed, ∃ a ∈ acc, a.file_path = s.file_path) →
    (∀ a ∈ acc, a ∈ processed) →
    List.Pairwise pathNe (l.foldl dedupInsert acc) ∧
    List.Pairwise simGE (l.foldl dedupInsert acc) ∧
    (∀ a ∈ l.foldl dedupInsert acc,
      (processed ++ l).find? (fun s => s.file_path == a.file_path) = some a) ∧
    (∀ s ∈ processed ++ l, ∃ a ∈ l.foldl dedupInsert acc, a.file_path = s.file_path) ∧
    (∀ a ∈ l.foldl dedupInsert acc, a ∈ processed ++ l) := by
  induction l with
  | nil =>
    intro acc processed _ h1 h2 _ h4 h5 h6
    exact ⟨h1, h2, by simpa using h4, by simpa using h5, by simpa using h6⟩
  | cons r l ih =>
    intro acc processed hsort h1 h2 h3 h4 h5 h6
    have hsl : List.Pairwise simGE l := List.Pairwise.of_cons hsort
    have hrl : ∀ s ∈ l, s.similarity ≤ r.similarity := fun s hs =>
      List.rel_of_pairwise_cons hsort hs
    rw [List.foldl_cons]
    by_cases hex : ∃ a ∈ acc, a.file_path = r.file_path
    · obtain ⟨a, ha, hpath⟩ := hex
      have hle : r.similarity ≤ a.similarity :=
        h3 a ha r (List.mem_cons_self r l)
      rw [dedupInsert_skip acc r a h1 ha hpath hle]
      have key := ih acc (processed ++ [r]) hsl h1 h2
        (fun a2 ha2 s hs => h3 a2 ha2 s (List.mem_cons_of_mem r hs))
        (fun a2 ha2 => by
          rw [List.find?_append, h4 a2 ha2]
          rfl)
        (fun s hs => by
          rcases List.mem_append.mp hs with hs2 | hs2
          · exact h5 s hs2
          · have hsr : s = r := by simpa using hs2
            exact ⟨a, ha, hsr ▸ hpath⟩)
        (fun a2 ha2 => List.mem_append_left [r] (h6 a2 ha2))
      simpa [List.append_assoc] using key
    · push_neg at hex
      rw [dedupInsert_fresh acc r hex]
      have hnotproc : processed.find? (fun s => s.file_path == r.file_path) = none := by
        rw [List.find?_eq_none]
        intro x hx
        simp only [beq_iff_eq]
        intro hxr
        obtain ⟨a, ha, hap⟩ := h5 x hx
        exact hex a ha (hap.trans hxr)
      have key := ih (acc ++ [r]) (processed ++ [r]) hsl
        (by
          rw [List.pairwise_append]
          exact ⟨h1, List.pairwise_singleton pathNe r,
            fun a ha b hb => (by simpa using hb : b = r) ▸ hex a ha⟩)
        (by
          rw [List.pairwise_append]
          exact ⟨h2, List.pairwise_singleton simGE r,
            fun a ha b hb => (by simpa using hb : b = r) ▸
              h3 a ha r (List.mem_cons_self r l)⟩)
        (fun a ha s hs => by
          rcases List.mem_append.mp ha with ha2 | ha2
          · exact h3 a ha2 s (List.mem_cons_of_mem r hs)
          · have har : a = r := by simpa using ha2
            exact har ▸ hrl s hs)
        (fun a ha => by
          rcases List.mem_append.mp ha with ha2 | ha2
          · rw [List.find?_append, h4 a ha2]
            rfl
          · have har : a = r := by simpa using ha2
            rw [List.find?_append, har, hnotproc]
            simp)
        (fun s hs => by
          rcases List.mem_append.mp hs with hs2 | hs2
          · obtain ⟨a, ha, hap⟩ := h5 s hs2
            exact ⟨a, List.mem_append_left [r] ha, hap⟩
          · have hsr : s = r := by simpa using hs2
            exact ⟨r, List.mem_append_right acc (List.mem_singleton_self r), hsr ▸ rfl⟩)
        (fun a ha => by
          rcases List.mem_append.mp ha with ha2 | ha2
          · exact List.mem_append_left [r] (h6 a ha2)
          · exact List.mem_append_right processed ha2)
      simpa [List.append_assoc] using key

theorem sorted_find?_max : ∀ (l : List SearchResult), List.Pairwise simGE l →
    ∀ (r : SearchResult), l.find? (fun s => s.file_path == r.file_path) = some r →
    ∀ s ∈ l, s.file_path = r.file_path → s.similarity ≤ r.similarity := by
  intro l
  induction l with
  | nil => intro _ r h; simp at h
  | cons a l ih =>
    intro hl r h s hs hsp
    by_cases hpa : a.file_path = r.file_path
    · have har : a = r := by
        have hfa := List.find?_cons_of_pos l (p := fun s => s.file_path == r.file_path)
          (a := a) (by simpa using hpa)
        rw [hfa] at h
        exact Option.some_inj.mp h
      rcases List.mem_cons.mp hs with rfl | hs2
      · exact le_of_eq (congrArg SearchResult.similarity har.symm).symm
      · exact har ▸ List.rel_of_pairwise_cons hl hs2
    · have hfind : l.find? (fun s => s.file_path == r.file_path) = some r := by
        rwa [List.find?_cons_of_neg l (by simpa using hpa)] at h
      rcases List.mem_cons.mp hs with rfl | hs2
      · exact absurd hsp hpa
      · exact ih (List.Pairwise.of_cons hl) r hfind s hs2 hsp

/-- C2: the merged search output truncates to at most n results, holds
each file path at most once, is sorted by similarity in non-increasing
order, and each returned entry is a pool entry of maximal similarity for
its path, namely the first entry of the similarity-sorted pool carrying
that path (so ties go to the entry met first in the stable scan). -/
theorem search_merge_C2 (pool : List SearchResult) (n_results : Nat) :
    (search pool n_results).length ≤ n_results ∧
    List.Pairwise pathNe (search pool n_results) ∧
    List.Pairwise simGE (search pool n_results) ∧
    ∀ r ∈ search pool n_results,
      r ∈ pool ∧
      (∀ s ∈ pool, s.file_path = r.file_path → s.similarity ≤ r.similarity) ∧
      (sort_results_by_similarity pool).find? (fun s => s.file_path == r.file_path)
        = some r := by
  have master := foldl_dedupInsert_sorted (sort_results_by_similarity pool) [] []
    (sort_results_pairwise pool) (by simp) (by simp) (by simp) (by simp) (by simp)
    (by simp)
  obtain ⟨m1, m2, m3, m4, m5⟩ := master
  simp only [List.nil_append] at m3 m4 m5
  have hdd : deduplicate_results (sort_results_by_similarity pool)
      = (sort_results_by_similarity pool).foldl dedupInsert [] := rfl
  have hsub : (search pool n_results).Sublist
      ((sort_results_by_similarity pool).foldl dedupInsert []) := by
    rw [search, hdd]
    exact List.take_sublist _ _
  refine ⟨?_, List.Pairwise.sublist hsub m1, List.Pairwise.sublist hsub m2, ?_⟩
  · rw [search]
    exact List.length_take_le _ _
  · intro r hr
    have hrd : r ∈ (sort_results_by_similarity pool).foldl dedupInsert [] :=
      hsub.subset hr
    have hfind := m3 r hrd
    have hmax := sorted_find?_max (sort_results_by_similarity pool)
      (sort_results_pairwise pool) r hfind
    exact ⟨(sort_results_perm pool).mem_iff.mp (m5 r hrd),
      fun s hs hsp => hmax s ((sort_results_perm pool).mem_iff.mpr hs) hsp, hfind⟩

def wsr1 : SearchResult :=
  { file_path := "a", content := "", similarity := 1, file_type := ".cs",
    chunk_index := 0, query := "q" }

def wsr2 : SearchResult :=
  { file_path := "b", content := "", similarity := 0, file_type := ".sql",
    chunk_index := 0, query := "q" }

def wPool : List SearchResult := [wsr1, wsr2]

/-- Witness for C2 on a two-entry pool. -/
theorem search_merge_C2_witness :
    (search wPool 2).length ≤ 2 ∧
    (wsr1 ∈ wPool ∧
      (∀ s ∈ wPool, s.file_path = wsr1.file_path → s.similarity ≤ wsr1.similarity) ∧
      (sort_results_by_similarity wPool).find? (fun s => s.file_path == wsr1.file_path)
        = some wsr1) :=
  ⟨(search_merge_C2 wPool 2).1, (search_merge_C2 wPool 2).2.2.2 wsr1 (by decide)⟩

/-! ## C3: implemented order (sort, dedup, truncate) against the spec
order (dedup, sort, truncate) -/

def wsrA0 : SearchResult :=
  { file_path := "a", content := "", similarity := 0, file_type := "",
    chunk_index := 0, query := "" }

def wsrB1 : SearchResult :=
  { file_path := "b", content := "", similarity := 1, file_type := "",
    chunk_index := 0, query := "" }

def wsrA1 : SearchResult :=
  { file_path := "a", content := "", similarity := 1, file_type := "",
    chunk_index := 0, query := "" }

def cexPool : List SearchResult := [wsrA0, wsrB1, wsrA1]

/-- Counterexample for C3 as stated: on the pool a@0, b@1, a@1 truncated
to one result the implemented order keeps path b (first of the tied
maxima in the sorted scan) while the spec order keeps path a (whose dict
slot was created first and updated in place), so the two pipelines
return different lists. -/
theorem search_order_cex_C3 : search cexPool 1 ≠ spec_order_search cexPool 1 := by
  decide

theorem dedupInsert_pairwise (seen : List SearchResult) (r : SearchResult)
    (h : List.Pairwise pathNe seen) : List.Pairwise pathNe (dedupInsert seen r) := by
  induction seen with
  | nil => exact List.pairwise_singleton pathNe r
  | cons s rest ih =>
    rw [dedupInsert]
    by_cases hp : s.file_path = r.file_path
    · simp only [hp, if_true]
      rw [List.pairwise_cons]
      refine ⟨?_, List.Pairwise.of_cons h⟩
      intro b hb
      have hsb : s.file_path ≠ b.file_path := List.rel_of_pairwise_cons h hb
      by_cases hrep : s.similarity < r.similarity
      · simp only [hrep, if_true]
        exact fun he => hsb (hp ▸ he)
      · simp only [hrep, if_false]
        exact hsb
    · simp only [hp, if_false]
      rw [List.pairwise_cons]
      refine ⟨?_, ih (List.Pairwise.of_cons h)⟩
      intro b hb
      rcases dedupInsert_mem rest r b hb with hb2 | hb2
      · exact List.rel_of_pairwise_cons h hb2
      · exact hb2 ▸ hp

theorem dedupInsert_covers (seen : List SearchResult) (r : SearchResult) :
    (∀ b ∈ seen, ∃ x ∈ dedupInsert seen r, x.file_path = b.file_path) ∧
    (∃ x ∈ dedupInsert seen r, x.file_path = r.file_path) := by
  induction seen with
  | nil =>
    exact ⟨fun b hb => absurd hb (List.not_mem_nil b),
      ⟨r, List.mem_singleton_self r, rfl⟩⟩
  | cons s rest ih =>
    rw [dedupInsert]
    by_cases hp : s.file_path = r.file_path
    · simp only [hp, if_true]
      have hheadpath : (if s.similarity < r.similarity then r else s).file_path
          = r.file_path := by
        by_cases hrep : s.similarity < r.similarity
        · simp [hrep]
        · simp [hrep, hp]
      constructor
      · intro b hb
        rcases List.mem_cons.mp hb with hb1 | hb2
        · refine ⟨(if s.similarity < r.similarity then r else s),
            List.mem_cons_self _ _, ?_⟩
          rw [hb1, hheadpath, hp]
        · exact ⟨b, List.mem_cons_of_mem _ hb2, rfl⟩
      · exact ⟨(if s.similarity < r.similarity then r else s),
          List.mem_cons_self _ _, hheadpath⟩
    · simp only [hp, if_false]
      constructor
      · intro b hb
        rcases List.mem_cons.mp hb with rfl | hb2
        · exact ⟨b, List.mem_cons_self _ _, rfl⟩
        · obtain ⟨x, hx, hxp⟩ := ih.1 b hb2
          exact ⟨x, List.mem_cons_of_mem _ hx, hxp⟩
      · obtain ⟨x, hx, hxp⟩ := ih.2
        exact ⟨x, List.mem_cons_of_mem _ hx, hxp⟩

theorem dedupInsert_best (seen : List SearchResult) (r : SearchResult)
    (hkey : List.Pairwise pathNe seen) :
    ∀ x ∈ dedupInsert seen r,
      (x ∈ seen ∧ (x.file_path = r.file_path → r.similarity ≤ x.similarity)) ∨
      (x = r ∧ ∀ a ∈ seen, a.file_path = r.file_path → a.similarity ≤ r.similarity) := by
  induction seen with
  | nil =>
    intro x hx
    have hxr : x = r := by simpa [dedupInsert] using hx
    exact Or.inr ⟨hxr, fun a ha => absurd ha (List.not_mem_nil a)⟩
  | cons s rest ih =>
    intro x hx
    rw [dedupInsert] at hx
    by_cases hp : s.file_path = r.file_path
    · simp only [hp, if_true] at hx
      rcases List.mem_cons.mp hx with hhead | htail
      · by_cases hrep : s.similarity < r.similarity
        · simp only [hrep, if_true] at hhead
          refine Or.inr ⟨hhead, ?_⟩
          intro a ha hap
          rcases List.mem_cons.mp ha with rfl | ha2
          · exact le_of_lt hrep
          · exact absurd (hp.trans hap.symm)
              (List.rel_of_pairwise_cons hkey ha2)
        · simp only [hrep, if_false] at hhead
          exact Or.inl ⟨hhead ▸ List.mem_cons_self s rest,
            fun _ => hhead ▸ not_lt.mp hrep⟩
      · refine Or.inl ⟨List.mem_cons_of_mem s htail, fun hxp => ?_⟩
        exact absurd (hp.trans hxp.symm)
          (List.rel_of_pairwise_cons hkey htail)
    · simp only [hp, if_false] at hx
      rcases List.mem_cons.mp hx with rfl | htail
      · exact Or.inl ⟨List.mem_cons_self x rest, fun hxp => absurd hxp hp⟩
      · rcases ih (List.Pairwise.of_cons hkey) x htail with ⟨hm, himp⟩ | ⟨hxr, hall⟩
        · exact Or.inl ⟨List.mem_cons_of_mem s hm, himp⟩
        · refine Or.inr ⟨hxr, ?_⟩
          intro a ha hap
          rcases List.mem_cons.mp ha with rfl | ha2
          · exact absurd hap hp
          · exact hall a ha2 hap

/-- Master invariant for the deduplication scan over an arbitrary input:
the accumulator keeps pairwise distinct paths, its entries come from the
processed input, each entry has maximal similarity among processed
entries of its path, and every processed path is covered. -/
theorem foldl_dedupInsert_general (l : List SearchResult) :
    ∀ (acc processed : List SearchResult),
    List.Pairwise pathNe acc →
    (∀ a ∈ acc, a ∈ processed) →
    (∀ a ∈ acc, ∀ s ∈ processed, s.file_path = a.file_path → s.similarity ≤ a.similarity) →
    (∀ s ∈ processed, ∃ a ∈ acc, a.file_path = s.file_path) →
    List.Pairwise pathNe (l.foldl dedupInsert acc) ∧
    (∀ a ∈ l.foldl dedupInsert acc, a ∈ processed ++ l) ∧
    (∀ a ∈ l.foldl dedupInsert acc, ∀ s ∈ processed ++ l,
      s.file_path = a.file_path → s.similarity ≤ a.similarity) ∧
    (∀ s ∈ processed ++ l, ∃ a ∈ l.foldl dedupInsert acc, a.file_path = s.file_path) := by
  induction l with
  | nil =>
    intro acc processed h1 h2 h3 h4
    exact ⟨h1, by simpa using h2, by simpa using h3, by simpa using h4⟩
  | cons r l ih =>
    intro acc processed h1 h2 h3 h4
    rw [List.foldl_cons]
    have key := ih (dedupInsert acc r) (processed ++ [r])
      (dedupInsert_pairwise acc r h1)
      (fun a ha => by
        rcases dedupInsert_mem acc r a ha with ha2 | ha2
        · exact List.mem_append_left [r] (h2 a ha2)
        · rw [ha2]
          exact List.mem_append_right processed (List.mem_singleton_self r))
      (fun a ha s hs hsp => by
        rcases dedupInsert_best acc r h1 a ha with ⟨hm, himp⟩ | ⟨har, hall⟩
        · rcases List.mem_append.mp hs with hs2 | hs2
          · exact h3 a hm s hs2 hsp
          · have hsr : s = r := by simpa using hs2
            rw [hsr]
            exact himp (by rw [← hsr]; exact hsp.symm)
        · rcases List.mem_append.mp hs with hs2 | hs2
          · obtain ⟨b, hb, hbp⟩ := h4 s hs2
            have hsb : s.similarity ≤ b.similarity := h3 b hb s hs2 hbp.symm
            have hba : b.file_path = r.file_path := by
              rw [hbp, hsp, har]
            have hbr : b.similarity ≤ r.similarity := hall b hb hba
            rw [har]
            exact le_trans hsb hbr
          · have hsr : s = r := by simpa using hs2
            rw [hsr, har]
        )
      (fun s hs => by
        rcases List.mem_append.mp hs with hs2 | hs2
        · obtain ⟨b, hb, hbp⟩ := h4 s hs2
          obtain ⟨x, hx, hxp⟩ := (dedupInsert_covers acc r).1 b hb
          exact ⟨x, hx, hxp.trans hbp⟩
        · have hsr : s = r := by simpa using hs2
          obtain ⟨x, hx, hxp⟩ := (dedupInsert_covers acc r).2
          exact ⟨x, hx, by rw [hsr]; exact hxp⟩)
    simpa [List.append_assoc] using key

/-- C3 amended: the implemented pipeline (sort, then deduplicate, then
truncate) agrees with the spec order (deduplicate, then sort, then
truncate) whenever the pooled similarity values are pairwise distinct;
the counterexample shows ties across distinct paths break the
equivalence. -/
theorem search_order_amended_C3 (pool : List SearchResult) (n_results : Nat)
    (hnd : (pool.map SearchResult.similarity).Nodup) :
    search pool n_results = spec_order_search pool n_results := by
  have hinj := List.inj_on_of_nodup_map hnd
  have masterA := foldl_dedupInsert_sorted (sort_results_by_similarity pool) [] []
    (sort_results_pairwise pool) (by simp) (by simp) (by simp) (by simp) (by simp)
    (by simp)
  obtain ⟨a1, a2, a3, a4, a5⟩ := masterA
  simp only [List.nil_append] at a3 a4 a5
  have masterD := foldl_dedupInsert_general pool [] []
    (by simp) (by simp) (by simp) (by simp)
  obtain ⟨d1, d2, d3, d4⟩ := masterD
  simp only [List.nil_append] at d2 d3 d4
  have hBperm : (sort_results_by_similarity (pool.foldl dedupInsert [])).Perm
      (pool.foldl dedupInsert []) := sort_results_perm _
  have b1 : List.Pairwise pathNe (sort_results_by_similarity (pool.foldl dedupInsert [])) :=
    (List.Perm.pairwise_iff (fun h => Ne.symm h) hBperm).mpr d1
  have b2 : List.Pairwise simGE (sort_results_by_similarity (pool.foldl dedupInsert [])) :=
    sort_results_pairwise _
  have bmem : ∀ x ∈ sort_results_by_similarity (pool.foldl dedupInsert []), x ∈ pool :=
    fun x hx => d2 x (hBperm.mem_iff.mp hx)
  have bmax : ∀ x ∈ sort_results_by_similarity (pool.foldl dedupInsert []),
      ∀ s ∈ pool, s.file_path = x.file_path → s.similarity ≤ x.similarity :=
    fun x hx => d3 x (hBperm.mem_iff.mp hx)
  have bcov : ∀ s ∈ pool, ∃ x ∈ sort_results_by_similarity (pool.foldl dedupInsert []),
      x.file_path = s.file_path := by
    intro s hs
    obtain ⟨x, hx, hp⟩ := d4 s hs
    exact ⟨x, hBperm.mem_iff.mpr hx, hp⟩
  have amem : ∀ x ∈ (sort_results_by_similarity pool).foldl dedupInsert [], x ∈ pool :=
    fun x hx => (sort_results_perm pool).mem_iff.mp (a5 x hx)
  have amax : ∀ x ∈ (sort_results_by_similarity pool).foldl dedupInsert [],
      ∀ s ∈ pool, s.file_path = x.file_path → s.similarity ≤ x.similarity :=
    fun x hx s hs hsp => sorted_find?_max _ (sort_results_pairwise pool) x (a3 x hx)
      s ((sort_results_perm pool).mem_iff.mpr hs) hsp
  have acov : ∀ s ∈ pool, ∃ x ∈ (sort_results_by_similarity pool).foldl dedupInsert [],
      x.file_path = s.file_path :=
    fun s hs => a4 s ((sort_results_perm pool).mem_iff.mpr hs)
  have hchar : ∀ (L : List SearchResult), (∀ x ∈ L, x ∈ pool) →
      (∀ x ∈ L, ∀ s ∈ pool, s.file_path = x.file_path → s.similarity ≤ x.similarity) →
      (∀ s ∈ pool, ∃ x ∈ L, x.file_path = s.file_path) →
      ∀ y, y ∈ L ↔ (y ∈ pool ∧
        ∀ s ∈ pool, s.file_path = y.file_path → s.similarity ≤ y.similarity) := by
    intro L hmem hmax hcov y
    constructor
    · exact fun hy => ⟨hmem y hy, hmax y hy⟩
    · rintro ⟨hyp, hymax⟩
      obtain ⟨x, hx, hxp⟩ := hcov y hyp
      have h1 : x.similarity ≤ y.similarity := hymax x (hmem x hx) hxp
      have h2 : y.similarity ≤ x.similarity := hmax x hx y hyp hxp.symm
      have hxy : x = y := hinj (hmem x hx) hyp (le_antisymm h1 h2)
      exact hxy ▸ hx
  have hmemAB : ∀ y, y ∈ (sort_results_by_similarity pool).foldl dedupInsert []
      ↔ y ∈ sort_results_by_similarity (pool.foldl dedupInsert []) :=
    fun y => (hchar _ amem amax acov y).trans ((hchar _ bmem bmax bcov y).symm)
  have ndA : ((sort_results_by_similarity pool).foldl dedupInsert []).Nodup :=
    a1.imp (fun h => fun he => h (by rw [he]))
  have ndB : (sort_results_by_similarity (pool.foldl dedupInsert [])).Nodup :=
    b1.imp (fun h => fun he => h (by rw [he]))
  have hperm := (List.perm_ext_iff_of_nodup ndA ndB).mpr hmemAB
  have hstrict : ∀ (L : List SearchResult), (∀ x ∈ L, x ∈ pool) →
      List.Pairwise simGE L → List.Pairwise pathNe L →
      List.Pairwise (fun a b => b.similarity < a.similarity) L := by
    intro L
    induction L with
    | nil => intro _ _ _; exact List.Pairwise.nil
    | cons a L ih =>
      intro hmem hs hk
      rw [List.pairwise_cons] at hs hk ⊢
      refine ⟨?_, ih (fun x hx => hmem x (List.mem_cons_of_mem a hx)) hs.2 hk.2⟩
      intro b hb
      refine lt_of_le_of_ne (hs.1 b hb) ?_
      intro he
      have hba : b = a := hinj (hmem b (List.mem_cons_of_mem a hb))
        (hmem a (List.mem_cons_self a L)) he
      exact hk.1 b hb (by rw [hba])
  have sA := hstrict _ amem a2 a1
  have sB := hstrict _ bmem b2 b1
  haveI : IsAntisymm SearchResult (fun a b => b.similarity < a.similarity) :=
    ⟨fun a b hab hba => absurd (lt_trans hab hba) (lt_irrefl _)⟩
  have hAB : (sort_results_by_similarity pool).foldl dedupInsert []
      = sort_results_by_similarity (pool.foldl dedupInsert []) :=
    List.eq_of_perm_of_sorted hperm sA sB
  have hdd : deduplicate_results (sort_results_by_similarity pool)
      = sort_results_by_similarity (deduplicate_results pool) := hAB
  rw [search, spec_order_search, hdd]

/-- Witness for C3 amended on a pool with pairwise distinct
similarities. -/
theorem search_order_amended_C3_witness :
    search wPool 1 = spec_order_search wPool 1 :=
  search_order_amended_C3 wPool 1 (by decide)

/-! ## C7: search_with_filters -/

/-- Counterexample for C7 as stated: the Python guard if file_types: is
a truthiness test, so the given but empty type set is skipped rather
than applied, and a result whose type is in no set at all is still
returned. -/
theorem search_filters_cex_C7 :
    search_with_filters [wsr1] (some []) 0 1 = [wsr1] ∧
    wsr1.file_type ∉ ([] : List String) := by
  decide

theorem type_filtered_sublist (results : List SearchResult)
    (file_types : Option (List String)) :
    (type_filtered results file_types).Sublist results := by
  cases file_types with
  | none => exact List.Sublist.refl results
  | some fts =>
    rw [type_filtered]
    by_cases he : fts.isEmpty
    · simp only [he, if_true]
      exact List.Sublist.refl results
    · simp only [he, if_false]
      exact List.filter_sublist results

/-- C7 amended: search_with_filters draws 2 times topN results from the
merged search, keeps only results at or above the similarity threshold
and, when a nonempty type set is given, only results whose type is a
member of it, preserves the relative order of the underlying sorted
search output, returns at most topN results, and when at most topN
survive the filters returns exactly the survivors with no re-query. -/
theorem search_with_filters_amended_C7 (pool : List SearchResult)
    (file_types : Option (List String)) (threshold : ℚ) (n_results : Nat) :
    (search_with_filters pool file_types threshold n_results).length ≤ n_results ∧
    (search_with_filters pool file_types threshold n_results).Sublist
      (search pool (2 * n_results)) ∧
    (∀ r ∈ search_with_filters pool file_types threshold n_results,
      threshold ≤ r.similarity) ∧
    (∀ fts, file_types = some fts → fts ≠ [] →
      ∀ r ∈ search_with_filters pool file_types threshold n_results,
        r.file_type ∈ fts) ∧
    ((filter_results_by_threshold
        (type_filtered (search pool (2 * n_results)) file_types) threshold).length
          ≤ n_results →
      search_with_filters pool file_types threshold n_results
        = filter_results_by_threshold
            (type_filtered (search pool (2 * n_results)) file_types) threshold) := by
  refine ⟨List.length_take_le _ _, ?_, ?_, ?_, ?_⟩
  · rw [search_with_filters]
    exact ((List.take_sublist _ _).trans (List.filter_sublist _)).trans
      (type_filtered_sublist _ _)
  · intro r hr
    rw [search_with_filters] at hr
    have hr2 := (List.take_sublist _ _).subset hr
    have := (List.mem_filter.mp hr2).2
    simpa using this
  · intro fts hfts hne r hr
    rw [search_with_filters, hfts] at hr
    have hr2 := (List.take_sublist _ _).subset hr
    have hr3 := (List.mem_filter.mp hr2).1
    rw [type_filtered] at hr3
    have hie : fts.isEmpty = false := by
      cases fts with
      | nil => exact absurd rfl hne
      | cons a l => rfl
    rw [hie, if_neg Bool.false_ne_true] at hr3
    have := (List.mem_filter.mp hr3).2
    simpa using this
  · intro hlen
    rw [search_with_filters]
    exact List.take_of_length_le hlen

/-- Witness for C7 amended on a two-entry pool with the nonempty type
set containing only .cs. -/
theorem search_with_filters_amended_C7_witness :
    (search_with_filters wPool (some [".cs"]) 0 1).length ≤ 1 ∧
    wsr1.file_type ∈ ([".cs"] : List String) ∧
    (∀ r ∈ search_with_filters wPool (some [".cs"]) 0 1, (0 : ℚ) ≤ r.similarity) :=
  ⟨(search_with_filters_amended_C7 wPool (some [".cs"]) 0 1).1,
    (search_with_filters_amended_C7 wPool (some [".cs"]) 0 1).2.2.2.1
      [".cs"] rfl (by decide) wsr1 (by decide),
    (search_with_filters_amended_C7 wPool (some [".cs"]) 0 1).2.2.1⟩

end MVI

